import Mathlib

/-!
Verification of the hierarchical tree state model of `fstree`.

This development shallowly embeds the ordering engine (`src/sort.rs`) and the
interactive tree state (`src/tui.rs`) of the repository and proves, or refutes,
the frozen claims about them.

Conventions of the embedding:
* Rust `Ordering` is Lean `Ordering`; Rust `Ordering::reverse` is `Ordering.swap`.
* Rust machine integers are modelled as `Nat`; the one place where `usize`
  subtraction can wrap (`len() - 1` on an empty vector, release semantics)
  is modelled explicitly by `usize_sub`.
* Fallible operations (Rust indexing that can panic) return `Option`.
* `OsStr` / `String` / `PathBuf` values are modelled as Lean `String`
  (`to_string_lossy` is the identity in this model).
-/

open Batteries (OrientedCmp TransCmp)

/-- Comparison of natural numbers, modelling Rust `Ord` on integer types
(`cmp` on `u64`/`usize` and on digit values). -/
def natCompare (a b : Nat) : Ordering :=
  if a < b then .lt else if b < a then .gt else .eq

theorem natCompare_eq_lt {a b : Nat} : natCompare a b = .lt ↔ a < b := by
  unfold natCompare; split_ifs <;> simp_all

theorem natCompare_eq_gt {a b : Nat} : natCompare a b = .gt ↔ b < a := by
  unfold natCompare; split_ifs with h1 h2 <;> simp_all <;> omega

theorem natCompare_eq_eq {a b : Nat} : natCompare a b = .eq ↔ a = b := by
  unfold natCompare; split_ifs with h1 h2 <;> simp_all <;> omega

theorem natCompare_self (a : Nat) : natCompare a a = .eq := by
  simp [natCompare_eq_eq]

theorem transCmp_natCompare : TransCmp natCompare := by
  refine { symm := ?_, le_trans := ?_ }
  · intro a b
    rcases Nat.lt_trichotomy a b with h | h | h
    · rw [natCompare_eq_lt.2 h, (@natCompare_eq_gt b a).2 h]; rfl
    · subst h; rw [natCompare_self]; rfl
    · rw [natCompare_eq_gt.2 h, (@natCompare_eq_lt b a).2 h]; rfl
  · intro a b c h1 h2
    rw [Ne, natCompare_eq_gt] at h1 h2 ⊢; omega

/-- Transporting `TransCmp` along a pointwise equal comparator. -/
theorem transCmp_congr {cmp₁ cmp₂ : α → α → Ordering}
    (h : ∀ a b, cmp₁ a b = cmp₂ a b) (tc : TransCmp cmp₁) : TransCmp cmp₂ := by
  have he : cmp₂ = cmp₁ := by funext a b; exact (h a b).symm
  rw [he]; exact tc

/-- A comparator pulled back along a key function stays lawful. -/
theorem transCmp_on {cmp : β → β → Ordering} (f : α → β) (tc : TransCmp cmp) :
    TransCmp (fun a b => cmp (f a) (f b)) := by
  refine { symm := ?_, le_trans := ?_ }
  · intro a b; exact tc.symm (f a) (f b)
  · intro a b c h1 h2; exact tc.le_trans h1 h2

/-- Lexicographic composition of two lawful comparators is lawful. -/
theorem transCmp_then {cmp₁ cmp₂ : α → α → Ordering}
    (t1 : TransCmp cmp₁) (t2 : TransCmp cmp₂) :
    TransCmp (fun a b => (cmp₁ a b).then (cmp₂ a b)) := by
  haveI i1 : TransCmp cmp₁ := t1
  haveI i2 : TransCmp cmp₂ := t2
  refine { symm := ?_, le_trans := ?_ }
  · intro a b
    rw [Ordering.swap_then, t1.symm, t2.symm]
  · intro a b c h1 h2
    rw [Ne, Ordering.then_eq_gt] at h1 h2 ⊢
    push_neg at h1 h2 ⊢
    obtain ⟨h1g, h1e⟩ := h1
    obtain ⟨h2g, h2e⟩ := h2
    constructor
    · intro hac
      rcases h : cmp₁ a b with _ | _ | _
      · exact absurd (TransCmp.lt_le_trans h h2g) (by rw [hac]; simp)
      · exact absurd ((TransCmp.cmp_congr_left h).symm.trans hac) h2g
      · exact h1g h
    · intro hac
      rcases h : cmp₁ a b with _ | _ | _
      · exact absurd (TransCmp.lt_le_trans h h2g) (by rw [hac]; simp)
      · have hbc : cmp₁ b c = .eq := by
          rw [← TransCmp.cmp_congr_left h, hac]
        exact i2.le_trans (h1e h) (h2e hbc)
      · exact absurd h h1g

/-- Lexicographic comparison of two lists by an element comparator, modelling
Rust lexicographic `Ord` on sequences (used for `str`/`String` comparison,
whose UTF-8 byte order agrees with code point order). -/
def lexCmpBy (cmp : α → α → Ordering) : List α → List α → Ordering
  | [], [] => .eq
  | [], _ :: _ => .lt
  | _ :: _, [] => .gt
  | x :: xs, y :: ys =>
    match cmp x y with
    | .eq => lexCmpBy cmp xs ys
    | o => o

theorem lexCmpBy_cons {cmp : α → α → Ordering} (x y : α) (xs ys : List α) :
    lexCmpBy cmp (x :: xs) (y :: ys) =
      match cmp x y with
      | .eq => lexCmpBy cmp xs ys
      | o => o := rfl

theorem transCmp_lexCmpBy {cmp : α → α → Ordering} (tc : TransCmp cmp) :
    TransCmp (lexCmpBy cmp) := by
  haveI := tc
  have hsymm : ∀ l1 l2 : List α, (lexCmpBy cmp l1 l2).swap = lexCmpBy cmp l2 l1 := by
    intro l1
    induction l1 with
    | nil => intro l2; cases l2 <;> rfl
    | cons x xs ih =>
      intro l2
      cases l2 with
      | nil => rfl
      | cons y ys =>
        rw [lexCmpBy_cons, lexCmpBy_cons, ← tc.symm x y]
        rcases h : cmp x y with _ | _ | _ <;>
          first
          | rfl
          | exact ih ys
  refine { symm := hsymm, le_trans := ?_ }
  intro l1 l2 l3
  induction l1 generalizing l2 l3 with
  | nil =>
    intro _ _
    cases l3 with
    | nil => simp [lexCmpBy]
    | cons z zs => cases l2 <;> simp [lexCmpBy]
  | cons x xs ih =>
    intro h1 h2
    cases l2 with
    | nil => simp [lexCmpBy] at h1
    | cons y ys =>
      cases l3 with
      | nil => simp [lexCmpBy] at h2
      | cons z zs =>
        rw [lexCmpBy_cons] at h1 h2 ⊢
        rcases hxy : cmp x y with _ | _ | _ <;> rw [hxy] at h1 <;>
          rcases hyz : cmp y z with _ | _ | _ <;> rw [hyz] at h2
        · rw [TransCmp.lt_trans hxy hyz]; simp
        · rw [TransCmp.lt_le_trans hxy (by simp [hyz])]; simp
        · simp at h2
        · rw [TransCmp.le_lt_trans (by simp [hxy]) hyz]; simp
        · have hxz : cmp x z = .eq := by
            rw [TransCmp.cmp_congr_left hxy, hyz]
          rw [hxz]; exact ih h1 h2
        · simp at h2
        · simp at h1
        · simp at h1
        · simp at h1

/-! ## Embedding of `src/sort.rs` -/

/-- Comparison of Rust `char`s (`char_a.cmp(&char_b)`): by code point. -/
def charCmp (c d : Char) : Ordering := natCompare c.toNat d.toNat

/-- Rust `str`/`String`/`OsStr` comparison (`cmp`): lexicographic on UTF-8
bytes, which agrees with lexicographic comparison of code points. -/
def strCmp (a b : String) : Ordering := lexCmpBy charCmp a.toList b.toList

/-- The UTF-8 encoded size of a character (Rust `char::len_utf8`). -/
def utf8CharSize (c : Char) : Nat :=
  if c.toNat < 128 then 1 else if c.toNat < 2048 then 2 else if c.toNat < 65536 then 3 else 4

/-- The UTF-8 byte length of a string given as its character list
(Rust `str::len`). -/
def utf8Len (l : List Char) : Nat := (l.map utf8CharSize).sum

/-- Rust `str::to_lowercase`, modelled on the ASCII range (`Char.toLower`
folds exactly the letters `A`-`Z`; the entries in the claims are ASCII). -/
def to_lowercase (s : String) : String := String.mk (s.toList.map Char.toLower)

/-- Defines the available sorting strategies. -/
inductive SortType where
  | Name
  | Size
  | Modified
  | Extension
deriving DecidableEq

instance : Inhabited SortType := ⟨SortType.Name⟩

/-- Configuration options for sorting directory entries. -/
structure SortOptions where
  sort_type : SortType := SortType.Name
  directories_first : Bool := false
  case_sensitive : Bool := false
  natural_sort : Bool := false
  reverse : Bool := false
  dotfiles_first : Bool := false
deriving DecidableEq

/-- The fields of `ignore::DirEntry` consulted by the sorting module:
`file_name()` (as a string, `to_string_lossy` being the identity here),
`file_type().map(|ft| ft.is_dir())`, `metadata().ok().map(|m| m.len())` and
`metadata().ok().and_then(|m| m.modified().ok())` (an instant as a `Nat`). -/
structure DirEntry where
  file_name : String
  file_type_is_dir : Option Bool
  metadata_len : Option Nat
  metadata_modified : Option Nat
deriving DecidableEq

/-- Checks if a directory entry is a dotfile/dotfolder: the file name starts
with a dot (`to_string_lossy().starts_with` on the first character). -/
def is_dotfile (entry : DirEntry) : Bool :=
  match entry.file_name.toList with
  | '.' :: _ => true
  | _ => false

/-- The suffix after the last dot of a name, if any dot is present. -/
def extAfterLastDot : List Char → Option (List Char)
  | [] => none
  | c :: cs =>
    match extAfterLastDot cs with
    | some e => some e
    | none => if c = '.' then some cs else none

/-- Extracts the file extension, returning the empty string if none
(`Path::extension` followed by `unwrap_or("")`; a leading dot does not count
as a separator, and a `None` extension and an empty one both give `""`). -/
def get_extension (filename : String) : String :=
  let cs := filename.toList
  let body :=
    match cs with
    | '.' :: rest => rest
    | _ => cs
  String.mk ((extAfterLastDot body).getD [])

/-- Gets the size of a directory entry, returning 0 for directories. -/
def get_entry_size (entry : DirEntry) : Nat :=
  if entry.file_type_is_dir.getD false then 0
  else entry.metadata_len.getD 0

/-- Returns sort priority for a character: numbers (0), uppercase (1),
lowercase (2), others (3). -/
def char_sort_priority (c : Char) : Nat :=
  if c.isDigit then 0
  else if c.isUpper then 1
  else if c.isLower then 2
  else 3

/-- The character loop of `compare_default_order`: zip the two character
sequences, comparing by priority class and then within the class. -/
def cdoLoop : List Char → List Char → Ordering
  | x :: xs, y :: ys =>
    match natCompare (char_sort_priority x) (char_sort_priority y) with
    | .eq =>
      match charCmp x y with
      | .eq => cdoLoop xs ys
      | o => o
    | o => o
  | _, _ => .eq

/-- Implements the default sort order: numbers first, then uppercase, then
lowercase; if all compared characters are equal, compare by byte length. -/
def compare_default_order (a b : String) : Ordering :=
  match cdoLoop a.toList b.toList with
  | .eq => natCompare (utf8Len a.toList) (utf8Len b.toList)
  | o => o

/-- A token of natural ordering: a maximal digit run (kept as its numeric
value) or a single non-digit character. -/
inductive NatTok where
  | num (v : Nat)
  | ch (c : Char)
deriving DecidableEq

/-- Splits a character list into natural-ordering tokens, accumulating the
numeric value of the current maximal digit run. -/
def tokenizeAux : List Char → Option Nat → List NatTok
  | [], none => []
  | [], some v => [NatTok.num v]
  | c :: cs, none =>
    if c.isDigit then tokenizeAux cs (some (c.toNat - 48))
    else NatTok.ch c :: tokenizeAux cs none
  | c :: cs, some v =>
    if c.isDigit then tokenizeAux cs (some (v * 10 + (c.toNat - 48)))
    else NatTok.num v :: NatTok.ch c :: tokenizeAux cs none

/-- Splits a character list into natural-ordering tokens: maximal digit runs
become their numeric value, other characters stand alone. -/
def tokenize (l : List Char) : List NatTok := tokenizeAux l none

/-- Comparison of natural-ordering tokens: digit runs compare by numeric
value; characters compare by code point; a digit run against a non-digit
character compares like any of its digits (the ASCII digits 48-57 are
contiguous, so the outcome only depends on which side of the digit block the
character falls). -/
def tokCmp : NatTok → NatTok → Ordering
  | .num v, .num w => natCompare v w
  | .ch c, .ch d => charCmp c d
  | .num _, .ch c => if c.toNat < 48 then .gt else .lt
  | .ch c, .num _ => if c.toNat < 48 then .lt else .gt

/-- Modelled from the spec: the third-party `natord::compare` crate used by
`compare_natural` is not vendored under `src/`; per the spec, name
comparisons under natural sort "treat embedded digit runs as numbers",
otherwise comparing character by character, case-sensitively. -/
def compare_natural (a b : String) : Ordering :=
  lexCmpBy tokCmp (tokenize a.toList) (tokenize b.toList)

/-- Performs case-insensitive comparison on OS strings. -/
def compare_case_insensitive (a b : String) : Ordering :=
  strCmp (to_lowercase a) (to_lowercase b)

/-- Performs case-insensitive comparison on regular strings. -/
def compare_case_insensitive_str (a b : String) : Ordering :=
  strCmp (to_lowercase a) (to_lowercase b)

/-- Compares entries by name, handling case sensitivity and natural sorting. -/
def compare_by_name (a b : DirEntry) (options : SortOptions) : Ordering :=
  if options.natural_sort then compare_natural a.file_name b.file_name
  else if options.case_sensitive then compare_default_order a.file_name b.file_name
  else compare_case_insensitive a.file_name b.file_name

/-- Compares entries by file size, with directories having size 0. -/
def compare_by_size (a b : DirEntry) : Ordering :=
  natCompare (get_entry_size a) (get_entry_size b)

/-- Compares entries by modification time: entries with known time sort
first, two entries with unreadable metadata are equal. -/
def compare_by_modified (a b : DirEntry) : Ordering :=
  match a.metadata_modified, b.metadata_modified with
  | some ta, some tb => natCompare ta tb
  | some _, none => .lt
  | none, some _ => .gt
  | none, none => .eq

/-- Compares entries by file extension, falling back to name comparison. -/
def compare_by_extension (a b : DirEntry) (options : SortOptions) : Ordering :=
  let ext_a := get_extension a.file_name
  let ext_b := get_extension b.file_name
  let ext_cmp :=
    if options.case_sensitive then strCmp ext_a ext_b
    else compare_case_insensitive_str ext_a ext_b
  if ext_cmp = .eq then compare_by_name a b options else ext_cmp

/-- The primary sorting strategy dispatch (the tail of `compare_entries`). -/
def compare_primary (a b : DirEntry) (options : SortOptions) : Ordering :=
  match options.sort_type with
  | .Name => compare_by_name a b options
  | .Size => compare_by_size a b
  | .Modified => compare_by_modified a b
  | .Extension => compare_by_extension a b options

/-- Compares two directory entries according to the sorting options. -/
def compare_entries (a b : DirEntry) (options : SortOptions) : Ordering :=
  let a_is_dir := a.file_type_is_dir.getD false
  let b_is_dir := b.file_type_is_dir.getD false
  let a_is_dotfile := is_dotfile a
  let b_is_dotfile := is_dotfile b
  if options.dotfiles_first then
    match a_is_dotfile, a_is_dir, b_is_dotfile, b_is_dir with
    | true, true, true, true
    | false, true, false, true
    | true, false, true, false
    | false, false, false, false => compare_primary a b options
    | true, true, _, _ => .lt
    | _, _, true, true => .gt
    | false, true, _, _ => .lt
    | _, _, false, true => .gt
    | true, false, _, _ => .lt
    | _, _, true, false => .gt
  else if options.directories_first then
    match a_is_dir, b_is_dir with
    | true, false => .lt
    | false, true => .gt
    | _, _ => compare_primary a b options
  else compare_primary a b options

/-- The per-pair comparison used by `sort_entries`: the entry comparison,
with the final result inverted when `reverse` is set. -/
def sort_comparator (options : SortOptions) (a b : DirEntry) : Ordering :=
  let result := compare_entries a b options
  if options.reverse then result.swap else result

/-- Sorts directory entries according to the given options. Rust
`slice::sort_by` is a stable sort; it is modelled by the stable
`List.insertionSort` on the non-strict order of the comparator. -/
def sort_entries (entries : List DirEntry) (options : SortOptions) : List DirEntry :=
  entries.insertionSort (fun a b => sort_comparator options a b ≠ Ordering.gt)

/-! ## Lawfulness of the comparators -/

theorem transCmp_charCmp : TransCmp charCmp :=
  transCmp_congr (fun _ _ => rfl) (transCmp_on Char.toNat transCmp_natCompare)

theorem transCmp_strCmp : TransCmp strCmp :=
  transCmp_congr (fun _ _ => rfl) (transCmp_on String.toList (transCmp_lexCmpBy transCmp_charCmp))

/-- The class of a token in the total preorder `tokCmp`: characters below
the digit block, then digit runs, then characters above the digit block. -/
def tokCls : NatTok → Nat
  | .ch c => if c.toNat < 48 then 0 else 2
  | .num _ => 1

/-- The key of a token within its class. -/
def tokKey : NatTok → Nat
  | .ch c => c.toNat
  | .num v => v

theorem tokCmp_eq_then (t u : NatTok) :
    tokCmp t u = (natCompare (tokCls t) (tokCls u)).then (natCompare (tokKey t) (tokKey u)) := by
  cases t with
  | num v =>
    cases u with
    | num w => simp [tokCmp, tokCls, tokKey, natCompare_self, Ordering.then]
    | ch c =>
      simp only [tokCmp, tokCls, tokKey]
      split_ifs with h
      · rw [natCompare_eq_gt.2 (by omega)]; rfl
      · rw [natCompare_eq_lt.2 (by omega)]; rfl
  | ch c =>
    cases u with
    | num w =>
      simp only [tokCmp, tokCls, tokKey]
      split_ifs with h
      · rw [natCompare_eq_lt.2 (by omega)]; rfl
      · rw [natCompare_eq_gt.2 (by omega)]; rfl
    | ch d =>
      simp only [tokCmp, tokCls, tokKey, charCmp]
      split_ifs with h1 h2 h2
      · rw [natCompare_self]; rfl
      · rw [natCompare_eq_lt.2 (by omega), natCompare_eq_lt.2 (by omega)]; rfl
      · rw [natCompare_eq_gt.2 (by omega), natCompare_eq_gt.2 (by omega)]; rfl
      · rw [natCompare_self]; rfl

theorem transCmp_tokCmp : TransCmp tokCmp :=
  transCmp_congr (fun t u => (tokCmp_eq_then t u).symm)
    (transCmp_then (transCmp_on tokCls transCmp_natCompare)
      (transCmp_on tokKey transCmp_natCompare))

theorem transCmp_compare_natural : TransCmp compare_natural :=
  transCmp_congr (fun _ _ => rfl)
    (transCmp_on (fun s : String => tokenize s.toList) (transCmp_lexCmpBy transCmp_tokCmp))

theorem transCmp_compare_case_insensitive : TransCmp compare_case_insensitive :=
  transCmp_congr (fun _ _ => rfl) (transCmp_on to_lowercase transCmp_strCmp)

theorem transCmp_compare_case_insensitive_str : TransCmp compare_case_insensitive_str :=
  transCmp_congr (fun _ _ => rfl) (transCmp_on to_lowercase transCmp_strCmp)

/-- The character order underlying `compare_default_order`: priority class
first, then code point. -/
def pcCmp (c d : Char) : Ordering :=
  (natCompare (char_sort_priority c) (char_sort_priority d)).then (charCmp c d)

theorem transCmp_pcCmp : TransCmp pcCmp :=
  transCmp_congr (fun _ _ => rfl)
    (transCmp_then (transCmp_on char_sort_priority transCmp_natCompare) transCmp_charCmp)

theorem utf8CharSize_pos (c : Char) : 0 < utf8CharSize c := by
  unfold utf8CharSize; split_ifs <;> omega

theorem utf8Len_cons (c : Char) (l : List Char) :
    utf8Len (c :: l) = utf8CharSize c + utf8Len l := by
  simp [utf8Len]

theorem natCompare_add_left (k m n : Nat) : natCompare (k + m) (k + n) = natCompare m n := by
  unfold natCompare; split_ifs <;> first | rfl | omega

theorem charCmp_eq_eq {c d : Char} (h : charCmp c d = .eq) : c = d := by
  have h1 : c.toNat = d.toNat := natCompare_eq_eq.1 h
  exact Char.eq_of_val_eq (UInt32.ext h1)

theorem cdoLoop_lex : ∀ la lb : List Char,
    (match cdoLoop la lb with
      | .eq => natCompare (utf8Len la) (utf8Len lb)
      | o => o) = lexCmpBy pcCmp la lb
  | [], [] => by simp [cdoLoop, lexCmpBy, utf8Len, natCompare]
  | [], y :: ys => by
    have : 0 < utf8Len (y :: ys) := by
      rw [utf8Len_cons]; have := utf8CharSize_pos y; omega
    simp only [cdoLoop, lexCmpBy]
    rw [show utf8Len ([] : List Char) = 0 from rfl, natCompare_eq_lt.2 this]
  | x :: xs, [] => by
    have : 0 < utf8Len (x :: xs) := by
      rw [utf8Len_cons]; have := utf8CharSize_pos x; omega
    simp only [cdoLoop, lexCmpBy]
    rw [show utf8Len ([] : List Char) = 0 from rfl, natCompare_eq_gt.2 this]
  | x :: xs, y :: ys => by
    rw [lexCmpBy_cons]
    show (match
        (match natCompare (char_sort_priority x) (char_sort_priority y) with
          | .eq => match charCmp x y with
            | .eq => cdoLoop xs ys
            | o => o
          | o => o) with
      | .eq => natCompare (utf8Len (x :: xs)) (utf8Len (y :: ys))
      | o => o) = _
    rcases hp : natCompare (char_sort_priority x) (char_sort_priority y) with _ | _ | _
    · simp [pcCmp, hp, Ordering.then]
    · rcases hc : charCmp x y with _ | _ | _
      · simp [pcCmp, hp, hc, Ordering.then]
      · have hxy : x = y := charCmp_eq_eq hc
        subst hxy
        rw [utf8Len_cons, utf8Len_cons, natCompare_add_left]
        have hrec := cdoLoop_lex xs ys
        simp only [pcCmp, hp, hc]
        exact hrec
      · simp [pcCmp, hp, hc, Ordering.then]
    · simp [pcCmp, hp, Ordering.then]

theorem compare_default_order_eq_lex (a b : String) :
    compare_default_order a b = lexCmpBy pcCmp a.toList b.toList :=
  cdoLoop_lex a.toList b.toList

theorem transCmp_compare_default_order : TransCmp compare_default_order :=
  transCmp_congr (fun a b => (compare_default_order_eq_lex a b).symm)
    (transCmp_on String.toList (transCmp_lexCmpBy transCmp_pcCmp))

theorem transCmp_compare_by_name (options : SortOptions) :
    TransCmp (fun a b => compare_by_name a b options) := by
  rcases hn : options.natural_sort with _ | _ <;>
    rcases hc : options.case_sensitive with _ | _
  · exact transCmp_congr (fun a b => by simp [compare_by_name, hn, hc])
      (transCmp_on DirEntry.file_name transCmp_compare_case_insensitive)
  · exact transCmp_congr (fun a b => by simp [compare_by_name, hn, hc])
      (transCmp_on DirEntry.file_name transCmp_compare_default_order)
  · exact transCmp_congr (fun a b => by simp [compare_by_name, hn])
      (transCmp_on DirEntry.file_name transCmp_compare_natural)
  · exact transCmp_congr (fun a b => by simp [compare_by_name, hn])
      (transCmp_on DirEntry.file_name transCmp_compare_natural)

theorem transCmp_compare_by_size : TransCmp compare_by_size :=
  transCmp_congr (fun _ _ => rfl) (transCmp_on get_entry_size transCmp_natCompare)

/-- The optional-instant comparison underlying `compare_by_modified`:
`none` (unreadable metadata) is the top element. -/
def optTimeCmp : Option Nat → Option Nat → Ordering
  | some ta, some tb => natCompare ta tb
  | some _, none => .lt
  | none, some _ => .gt
  | none, none => .eq

theorem compare_by_modified_eq (a b : DirEntry) :
    compare_by_modified a b = optTimeCmp a.metadata_modified b.metadata_modified := by
  rcases ha : a.metadata_modified with _ | ta <;> rcases hb : b.metadata_modified with _ | tb <;>
    simp [compare_by_modified, optTimeCmp, ha, hb]

theorem transCmp_optTimeCmp : TransCmp optTimeCmp := by
  refine { symm := ?_, le_trans := ?_ }
  · intro a b
    rcases a with _ | ta <;> rcases b with _ | tb <;>
      first
      | rfl
      | exact transCmp_natCompare.symm ta tb
  · intro a b c h1 h2
    rcases a with _ | ta <;> rcases b with _ | tb <;> rcases c with _ | tc <;>
      simp only [optTimeCmp] at h1 h2 ⊢ <;>
      first
      | exact h1
      | exact h2
      | exact transCmp_natCompare.le_trans h1 h2
      | exact absurd rfl h1
      | exact absurd rfl h2
      | simp

theorem transCmp_compare_by_modified : TransCmp compare_by_modified :=
  transCmp_congr (fun a b => (compare_by_modified_eq a b).symm)
    (transCmp_on DirEntry.metadata_modified transCmp_optTimeCmp)

theorem if_eq_then (o p : Ordering) : (if o = .eq then p else o) = o.then p := by
  cases o <;> simp [Ordering.then]

/-- The extension comparison used by `compare_by_extension` before the name
fallback. -/
def extCmp (options : SortOptions) (a b : DirEntry) : Ordering :=
  if options.case_sensitive then strCmp (get_extension a.file_name) (get_extension b.file_name)
  else compare_case_insensitive_str (get_extension a.file_name) (get_extension b.file_name)

theorem compare_by_extension_eq_then (a b : DirEntry) (options : SortOptions) :
    compare_by_extension a b options = (extCmp options a b).then (compare_by_name a b options) := by
  simp only [compare_by_extension, extCmp]
  exact if_eq_then _ _

theorem transCmp_extCmp (options : SortOptions) : TransCmp (extCmp options) := by
  rcases hc : options.case_sensitive with _ | _
  · exact transCmp_congr (fun a b => by simp [extCmp, hc])
      (transCmp_on (fun e : DirEntry => get_extension e.file_name)
        transCmp_compare_case_insensitive_str)
  · exact transCmp_congr (fun a b => by simp [extCmp, hc])
      (transCmp_on (fun e : DirEntry => get_extension e.file_name) transCmp_strCmp)

theorem transCmp_compare_by_extension (options : SortOptions) :
    TransCmp (fun a b => compare_by_extension a b options) :=
  transCmp_congr (fun a b => (compare_by_extension_eq_then a b options).symm)
    (transCmp_then (transCmp_extCmp options) (transCmp_compare_by_name options))

theorem transCmp_compare_primary (options : SortOptions) :
    TransCmp (fun a b => compare_primary a b options) := by
  rcases ht : options.sort_type
  · exact transCmp_congr (fun a b => by simp [compare_primary, ht])
      (transCmp_compare_by_name options)
  · exact transCmp_congr (fun a b => by simp [compare_primary, ht]) transCmp_compare_by_size
  · exact transCmp_congr (fun a b => by simp [compare_primary, ht]) transCmp_compare_by_modified
  · exact transCmp_congr (fun a b => by simp [compare_primary, ht])
      (transCmp_compare_by_extension options)

/-- The priority bucket that `compare_entries` assigns to an entry before the
primary key: under `dotfiles_first` a four-way priority (dot-directories,
directories, dot-files, files), under `directories_first` a two-way one,
otherwise a single bucket. -/
def entry_bucket (options : SortOptions) (e : DirEntry) : Nat :=
  if options.dotfiles_first then
    match is_dotfile e, e.file_type_is_dir.getD false with
    | true, true => 0
    | false, true => 1
    | true, false => 2
    | false, false => 3
  else if options.directories_first then
    if e.file_type_is_dir.getD false then 0 else 1
  else 0

theorem compare_entries_eq_then (a b : DirEntry) (options : SortOptions) :
    compare_entries a b options =
      (natCompare (entry_bucket options a) (entry_bucket options b)).then
        (compare_primary a b options) := by
  rcases hdot : options.dotfiles_first with _ | _
  · rcases hdir : options.directories_first with _ | _
    · simp [compare_entries, entry_bucket, hdot, hdir, natCompare_self, Ordering.then]
    · rcases ha : a.file_type_is_dir.getD false with _ | _ <;>
        rcases hb : b.file_type_is_dir.getD false with _ | _ <;>
        simp [compare_entries, entry_bucket, hdot, hdir, ha, hb, natCompare,
          Ordering.then]
  · rcases ha : a.file_type_is_dir.getD false with _ | _ <;>
      rcases hb : b.file_type_is_dir.getD false with _ | _ <;>
      rcases ha2 : is_dotfile a with _ | _ <;>
      rcases hb2 : is_dotfile b with _ | _ <;>
      simp [compare_entries, entry_bucket, hdot, ha, hb, ha2, hb2, natCompare,
        Ordering.then]

theorem transCmp_compare_entries (options : SortOptions) :
    TransCmp (fun a b => compare_entries a b options) :=
  transCmp_congr (fun a b => (compare_entries_eq_then a b options).symm)
    (transCmp_then (transCmp_on (entry_bucket options) transCmp_natCompare)
      (transCmp_compare_primary options))

/-! ## A stable sort determines its output up to the order: reversal lemma -/

theorem perm_sorted_unique {s : α → α → Prop} :
    ∀ {l₁ l₂ : List α}, l₁.Perm l₂ → l₁.Nodup → l₁.Pairwise s → l₂.Pairwise s →
      (∀ a ∈ l₁, ∀ b ∈ l₁, s a b → s b a → a = b) → l₁ = l₂ := by
  intro l₁
  induction l₁ with
  | nil =>
    intro l₂ p _ _ _ _
    exact (p.symm.eq_nil).symm
  | cons a t ih =>
    intro l₂ p hnd hp₁ hp₂ anti
    have ha : a ∈ l₂ := p.subset (List.mem_cons_self a t)
    obtain ⟨u, v, huv⟩ := List.append_of_mem ha
    subst huv
    cases u with
    | nil =>
      simp only [List.nil_append] at p hp₂ ⊢
      have p' : t.Perm v := p.cons_inv
      have ht : t = v := by
        refine ih p' hnd.of_cons hp₁.of_cons hp₂.of_cons ?_
        intro x hx y hy
        exact anti x (List.mem_cons_of_mem _ hx) y (List.mem_cons_of_mem _ hy)
      rw [ht]
    | cons b u' =>
      exfalso
      have hbt : b ∈ a :: t := p.symm.subset (List.mem_cons_self b _)
      have hba : b ≠ a := by
        intro h
        subst h
        have hnd₂ : (b :: (u' ++ b :: v)).Nodup := by
          have := p.nodup hnd
          simpa using this
        have hmem : b ∈ u' ++ b :: v := by simp
        exact (List.nodup_cons.1 hnd₂).1 hmem
      have hbt' : b ∈ t := by
        rcases List.mem_cons.1 hbt with h | h
        · exact absurd h hba
        · exact h
      have hsab : s a b := (List.pairwise_cons.1 hp₁).1 b hbt'
      have hsba : s b a := by
        have := (List.pairwise_cons.1 hp₂).1 a (by simp)
        exact this
      exact hba (anti a (List.mem_cons_self a t) b (List.mem_cons_of_mem _ hbt') hsab hsba).symm

theorem orderedInsert_congr {r₁ r₂ : α → α → Prop} [DecidableRel r₁] [DecidableRel r₂]
    (h : ∀ a b, r₁ a b ↔ r₂ a b) (x : α) :
    ∀ l : List α, l.orderedInsert r₁ x = l.orderedInsert r₂ x
  | [] => rfl
  | b :: l => by
    by_cases hr : r₁ x b
    · simp [List.orderedInsert, hr, (h x b).1 hr]
    · simp only [List.orderedInsert, if_neg hr, if_neg (fun hh => hr ((h x b).2 hh))]
      rw [orderedInsert_congr h x l]

theorem insertionSort_congr {r₁ r₂ : α → α → Prop} [DecidableRel r₁] [DecidableRel r₂]
    (h : ∀ a b, r₁ a b ↔ r₂ a b) :
    ∀ l : List α, l.insertionSort r₁ = l.insertionSort r₂
  | [] => rfl
  | b :: l => by
    simp only [List.insertionSort]
    rw [insertionSort_congr h l, orderedInsert_congr h b]

/-- Sorting by the swapped comparator produces the exact reverse of sorting by
the comparator, whenever no two list elements compare equal. -/
theorem insertionSort_swap_eq_reverse {cmp : α → α → Ordering} (tc : TransCmp cmp) (l : List α)
    (hne : l.Pairwise (fun a b => cmp a b ≠ Ordering.eq)) :
    l.insertionSort (fun a b => (cmp a b).swap ≠ Ordering.gt)
      = (l.insertionSort (fun a b => cmp a b ≠ Ordering.gt)).reverse := by
  haveI := tc
  have hswap : ∀ a b, cmp b a = (cmp a b).swap := fun a b => (tc.symm a b).symm
  have hiff : ∀ a b, ((cmp a b).swap ≠ Ordering.gt) ↔ (cmp a b ≠ Ordering.lt) := by
    intro a b; cases cmp a b <;> simp [Ordering.swap]
  rw [insertionSort_congr hiff l]
  haveI hts : IsTrans α (fun a b => cmp a b ≠ Ordering.lt) :=
    ⟨fun _ _ _ h1 h2 => TransCmp.ge_trans h1 h2⟩
  haveI hto : IsTotal α (fun a b => cmp a b ≠ Ordering.lt) := by
    refine ⟨fun a b => ?_⟩
    by_cases h : cmp a b = Ordering.lt
    · right; rw [hswap a b, h]; simp [Ordering.swap]
    · left; exact h
  haveI hts' : IsTrans α (fun a b => cmp a b ≠ Ordering.gt) :=
    ⟨fun _ _ _ h1 h2 => TransCmp.le_trans h1 h2⟩
  haveI hto' : IsTotal α (fun a b => cmp a b ≠ Ordering.gt) := by
    refine ⟨fun a b => ?_⟩
    by_cases h : cmp a b = Ordering.gt
    · right
      rw [hswap a b, h]
      simp [Ordering.swap]
    · left; exact h
  have hnodup : l.Nodup := by
    refine hne.imp ?_
    intro a b hab
    intro hEq
    subst hEq
    exact hab (OrientedCmp.cmp_refl)
  have hforall : ∀ a ∈ l, ∀ b ∈ l, a ≠ b → cmp a b ≠ Ordering.eq := by
    have hsym : Symmetric (fun a b : α => cmp a b ≠ Ordering.eq) := by
      intro a b hab hEq
      rw [hswap b a] at hab
      rw [hEq] at hab
      exact hab rfl
    intro a haa b hbb hab
    exact hne.forall hsym haa hbb hab
  refine @perm_sorted_unique α (fun a b => cmp a b ≠ Ordering.lt) _ _ ?_ ?_ ?_ ?_ ?_
  · exact (List.perm_insertionSort _ l).trans
      (((List.reverse_perm _).trans (List.perm_insertionSort _ l)).symm)
  · exact ((List.perm_insertionSort _ l).symm.nodup hnodup)
  · exact List.sorted_insertionSort _ l
  · rw [List.pairwise_reverse]
    refine (List.sorted_insertionSort (fun a b => cmp a b ≠ Ordering.gt) l).imp ?_
    intro a b hab
    rw [hswap a b]
    cases hh : cmp a b <;> rw [hh] at hab <;> simp [Ordering.swap] <;> simp at hab
  · intro a haa b hbb hab hba
    have haa' : a ∈ l := (List.perm_insertionSort _ l).subset haa
    have hbb' : b ∈ l := (List.perm_insertionSort _ l).subset hbb
    by_contra hne2
    have hgt : cmp a b ≠ Ordering.gt := by
      intro hh
      rw [hswap a b, hh] at hba
      exact hba rfl
    have : cmp a b = Ordering.eq := by
      cases hh : cmp a b
      · exact absurd hh hab
      · rfl
      · exact absurd hh hgt
    exact hforall a haa' b hbb' hne2 this

/-! ## Embedding of `src/tui.rs` -/

/-- Wrapping subtraction on `usize` (release semantics of `a - b`; the
operands of interest are below `2^64`). -/
def usize_sub (a b : Nat) : Nat := if b ≤ a then a - b else a + 2 ^ 64 - b

/-- A simplified representation of a file entry Git status (`git.rs`). -/
inductive FileStatus where
  | Modified
  | New
  | Deleted
  | Renamed
  | Typechange
  | Untracked
  | Conflicted
deriving DecidableEq

/-- One scanned filesystem entry of the interactive tree
(`struct FileEntry` in `tui.rs`). -/
structure FileEntry where
  path : String
  depth : Nat
  is_dir : Bool
  is_expanded : Bool
  size : Option Nat
  permissions : Option String
  git_status : Option FileStatus
deriving DecidableEq

instance : Inhabited FileEntry := ⟨⟨"", 0, false, false, none, none, none⟩⟩

/-- The interactive application state (`struct AppState` in `tui.rs`).
`list_state` is the selected index of the `ratatui` `ListState`. -/
structure AppState where
  master_entries : List FileEntry
  visible_entries : List FileEntry
  list_state : Option Nat
deriving DecidableEq

/-- The `while parent_expanded_stack.len() >= entry.depth { pop }` loop of
`regenerate_visible_entries`. The stack is kept top-first (list head =
most recently pushed flag). For `depth = 0` the Rust loop would not
terminate; the walker only produces depths `>= 1`. -/
def popStack : List Bool → Nat → List Bool
  | [], _ => []
  | b :: rest, depth =>
    if rest.length + 1 ≥ depth then popStack rest depth else b :: rest

/-- The loop body of `AppState::regenerate_visible_entries`: walk the master
entries keeping a stack of ancestor `is_expanded` flags; an entry is kept iff
all flags on the (popped) stack are true; directories push their own flag. -/
def regenAux : List Bool → List FileEntry → List FileEntry
  | _, [] => []
  | stack, entry :: rest =>
    let stack1 := popStack stack entry.depth
    let stack2 := if entry.is_dir then entry.is_expanded :: stack1 else stack1
    if stack1.all (fun x => x) then entry :: regenAux stack2 rest
    else regenAux stack2 rest

/-- The function `AppState::regenerate_visible_entries`, as a pure map from the master
sequence to the visible sequence. -/
def regenerate_visible_entries (master : List FileEntry) : List FileEntry :=
  regenAux [] master

/-- The per-entry visibility flags computed by the same stack walk. -/
def visFlagsAux : List Bool → List FileEntry → List Bool
  | _, [] => []
  | stack, entry :: rest =>
    let stack1 := popStack stack entry.depth
    let stack2 := if entry.is_dir then entry.is_expanded :: stack1 else stack1
    stack1.all (fun x => x) :: visFlagsAux stack2 rest

/-- Keep the entries whose flag is true. -/
def selectFlags : List FileEntry → List Bool → List FileEntry
  | e :: es, f :: fs => if f then e :: selectFlags es fs else selectFlags es fs
  | _, _ => []

/-- The stack state after processing a list of entries (used to reason about
the walk one entry at a time). -/
def stackAfter (stack : List Bool) : List FileEntry → List Bool
  | [] => stack
  | entry :: rest =>
    stackAfter
      (if entry.is_dir then entry.is_expanded :: popStack stack entry.depth
       else popStack stack entry.depth) rest

/-- The master-sequence mutation of `toggle_selected_directory`: find the
first entry with the selected path and, if it is a directory, flip its
`is_expanded` flag. -/
def toggle_master_entry : List FileEntry → String → List FileEntry
  | [], _ => []
  | e :: rest, p =>
    if e.path = p then
      (if e.is_dir then { e with is_expanded := !e.is_expanded } else e) :: rest
    else e :: toggle_master_entry rest p

namespace AppState

/-- Models `AppState::next` (wraps past the end; `len() - 1` uses wrapping `usize`
subtraction, and panics in a debug build when the list is empty). -/
def next (s : AppState) : AppState :=
  let i :=
    match s.list_state with
    | some i => if i ≥ usize_sub s.visible_entries.length 1 then 0 else i + 1
    | none => 0
  { s with list_state := some i }

/-- Models `AppState::previous` (wraps past the start, same conventions). -/
def previous (s : AppState) : AppState :=
  let i :=
    match s.list_state with
    | some i => if i = 0 then usize_sub s.visible_entries.length 1 else i - 1
    | none => 0
  { s with list_state := some i }

/-- Models `AppState::toggle_selected_directory`. Returns `none` when the Rust code
panics (indexing `visible_entries[selected_index]` out of bounds). -/
def toggle_selected_directory (s : AppState) : Option AppState :=
  match s.list_state with
  | none => some s
  | some selected_index =>
    match s.visible_entries.get? selected_index with
    | none => none
    | some sel =>
      let selected_path := sel.path
      let master := toggle_master_entry s.master_entries selected_path
      let visible := regenerate_visible_entries master
      let state :=
        match visible.findIdx? (fun e => e.path = selected_path) with
        | some new_index => some new_index
        | none => some (min selected_index (usize_sub visible.length 1))
      some { master_entries := master, visible_entries := visible, list_state := state }

end AppState

/-! ## Structural lemmas about the visibility walk -/

theorem regenAux_eq_selectFlags : ∀ (stack : List Bool) (l : List FileEntry),
    regenAux stack l = selectFlags l (visFlagsAux stack l)
  | _, [] => rfl
  | stack, entry :: rest => by
    simp only [regenAux, visFlagsAux, selectFlags]
    split
    · rw [regenAux_eq_selectFlags]
    · rw [regenAux_eq_selectFlags]

theorem regenAux_sublist : ∀ (stack : List Bool) (l : List FileEntry),
    (regenAux stack l).Sublist l
  | _, [] => List.Sublist.refl []
  | stack, entry :: rest => by
    simp only [regenAux]
    split
    · exact (regenAux_sublist _ rest).cons₂ entry
    · exact (regenAux_sublist _ rest).cons entry

theorem visFlagsAux_length : ∀ (stack : List Bool) (l : List FileEntry),
    (visFlagsAux stack l).length = l.length
  | _, [] => rfl
  | stack, entry :: rest => by
    simp only [visFlagsAux, List.length_cons]
    rw [visFlagsAux_length]

theorem visFlagsAux_append (stack : List Bool) :
    ∀ (l1 l2 : List FileEntry),
      visFlagsAux stack (l1 ++ l2) =
        visFlagsAux stack l1 ++ visFlagsAux (stackAfter stack l1) l2 := by
  intro l1
  induction l1 generalizing stack with
  | nil => intro l2; rfl
  | cons e es ih =>
    intro l2
    simp only [List.cons_append, visFlagsAux, stackAfter, List.append_eq]
    split
    · rw [ih]
    · rw [ih]

theorem visFlag_at_append (stack : List Bool) (l1 l2 : List FileEntry) (e : FileEntry) :
    (visFlagsAux stack (l1 ++ e :: l2)).getD l1.length false =
      (popStack (stackAfter stack l1) e.depth).all (fun x => x) := by
  rw [visFlagsAux_append]
  rw [List.getD_append_right _ _ _ _ (by rw [visFlagsAux_length])]
  rw [visFlagsAux_length, Nat.sub_self]
  rfl

theorem mem_selectFlags_of_flag :
    ∀ (l : List FileEntry) (fs : List Bool) (k : Nat), k < l.length → k < fs.length →
      fs.getD k false = true → l.getD k default ∈ selectFlags l fs
  | e :: es, f :: fs, 0, _, _, hf => by
    simp only [List.getD_cons_zero] at hf
    subst hf
    simp only [List.getD_cons_zero, selectFlags, if_pos rfl]
    exact List.mem_cons_self _ _
  | e :: es, f :: fs, k + 1, hk, hk2, hf => by
    simp only [List.getD_cons_succ] at hf ⊢
    have hrec := mem_selectFlags_of_flag es fs k (by simpa using hk) (by simpa using hk2) hf
    cases f with
    | true =>
      simp only [selectFlags, if_pos rfl]
      exact List.mem_cons_of_mem _ hrec
    | false =>
      simp only [selectFlags, Bool.false_eq_true, if_false]
      exact hrec

theorem flag_of_mem_selectFlags :
    ∀ (l : List FileEntry) (fs : List Bool) (e : FileEntry), e ∈ selectFlags l fs →
      ∃ k, k < l.length ∧ k < fs.length ∧ l.getD k default = e ∧ fs.getD k false = true
  | [], fs, e, h => by simp [selectFlags] at h
  | x :: xs, [], e, h => by simp [selectFlags] at h
  | x :: xs, f :: fs, e, h => by
    cases f with
    | true =>
      simp only [selectFlags, if_pos rfl] at h
      rcases List.mem_cons.1 h with h1 | h1
      · exact ⟨0, by simp, by simp, by simp [h1.symm], by simp⟩
      · obtain ⟨k, hk1, hk2, hk3, hk4⟩ := flag_of_mem_selectFlags xs fs e h1
        exact ⟨k + 1, by simpa using hk1, by simpa using hk2, by simpa using hk3,
          by simpa using hk4⟩
    | false =>
      simp only [selectFlags, Bool.false_eq_true, if_false] at h
      obtain ⟨k, hk1, hk2, hk3, hk4⟩ := flag_of_mem_selectFlags xs fs e h
      exact ⟨k + 1, by simpa using hk1, by simpa using hk2, by simpa using hk3,
        by simpa using hk4⟩

theorem findIdxQ_lt_length {p : FileEntry → Bool} :
    ∀ {l : List FileEntry} {j : Nat}, l.findIdx? p = some j → j < l.length := by
  intro l
  induction l with
  | nil => intro j h; simp [List.findIdx?] at h
  | cons x xs ih =>
    intro j h
    have hc : (x :: xs).findIdx? p = if p x then some 0 else (xs.findIdx? p).map (· + 1) := by
      rw [show (x :: xs).findIdx? p =
          (if p x then some 0 else xs.findIdx? p (0 + 1)) from rfl]
      rw [List.findIdx?_succ]
    rw [hc] at h
    by_cases hp : p x
    · rw [if_pos hp] at h
      simp only [Option.some.injEq] at h
      subst h
      simp
    · rw [if_neg hp] at h
      simp only [Option.map_eq_some'] at h
      obtain ⟨j', hj', rfl⟩ := h
      have := ih hj'
      simp only [List.length_cons]
      omega

theorem findIdxQ_some_of_mem {p : FileEntry → Bool} :
    ∀ {l : List FileEntry} {x : FileEntry}, x ∈ l → p x = true →
      ∃ j, l.findIdx? p = some j := by
  intro l
  induction l with
  | nil => intro x h; simp at h
  | cons y ys ih =>
    intro x hx hp
    have hc : (y :: ys).findIdx? p = if p y then some 0 else (ys.findIdx? p).map (· + 1) := by
      rw [show (y :: ys).findIdx? p =
          (if p y then some 0 else ys.findIdx? p (0 + 1)) from rfl]
      rw [List.findIdx?_succ]
    rw [hc]
    by_cases hy : p y
    · exact ⟨0, by rw [if_pos hy]⟩
    · rcases List.mem_cons.1 hx with h1 | h1
      · subst h1; exact absurd hp hy
      · obtain ⟨j, hj⟩ := ih h1 hp
        exact ⟨j + 1, by rw [if_neg hy, hj]; rfl⟩

theorem findIdxQ_eq_of_unique {p : FileEntry → Bool} :
    ∀ {l : List FileEntry} {i : Nat}, i < l.length → p (l.getD i default) = true →
      (∀ j, j < l.length → p (l.getD j default) = true → j = i) →
      l.findIdx? p = some i := by
  intro l
  induction l with
  | nil => intro i hi; simp at hi
  | cons y ys ih =>
    intro i hi hp huniq
    have hc : (y :: ys).findIdx? p = if p y then some 0 else (ys.findIdx? p).map (· + 1) := by
      rw [show (y :: ys).findIdx? p =
          (if p y then some 0 else ys.findIdx? p (0 + 1)) from rfl]
      rw [List.findIdx?_succ]
    rw [hc]
    by_cases hy : p y
    · have h0 := huniq 0 (by simp) (by simpa using hy)
      rw [if_pos hy, h0]
    · cases i with
      | zero => simp only [List.getD_cons_zero] at hp; exact absurd hp hy
      | succ i' =>
        rw [if_neg hy]
        have hrec := ih (by simpa using hi) (by simpa using hp) ?_
        · rw [hrec]; rfl
        · intro j hj hpj
          have := huniq (j + 1) (by simpa using hj) (by simpa using hpj)
          omega

theorem toggle_master_append (l1 l2 : List FileEntry) (m : FileEntry) (p : String)
    (h1 : ∀ e ∈ l1, e.path ≠ p) (hm : m.path = p) :
    toggle_master_entry (l1 ++ m :: l2) p =
      l1 ++ (if m.is_dir then { m with is_expanded := !m.is_expanded } else m) :: l2 := by
  induction l1 with
  | nil =>
    simp only [List.nil_append, toggle_master_entry, if_pos hm]
  | cons e es ih =>
    have hne : e.path ≠ p := h1 e (List.mem_cons_self e es)
    simp only [List.cons_append, toggle_master_entry, if_neg hne, List.append_eq]
    rw [ih (fun x hx => h1 x (List.mem_cons_of_mem _ hx))]

theorem visFlag_toggle_eq (l1 l2 l2q : List FileEntry) (m mq : FileEntry)
    (hd : mq.depth = m.depth) :
    (visFlagsAux [] (l1 ++ mq :: l2q)).getD l1.length false =
      (visFlagsAux [] (l1 ++ m :: l2)).getD l1.length false := by
  rw [visFlag_at_append, visFlag_at_append, hd]

/-- Locating a visible entry inside the master sequence: its master index, its
visibility flag, and the fact that no earlier master entry shares its path. -/
theorem visible_entry_position (master : List FileEntry)
    (hnodup : (master.map FileEntry.path).Nodup)
    (v : FileEntry) (hv : v ∈ regenerate_visible_entries master) :
    ∃ k, k < master.length ∧ master.getD k default = v ∧
      (visFlagsAux [] master).getD k false = true ∧
      ∀ e ∈ master.take k, e.path ≠ v.path := by
  rw [regenerate_visible_entries, regenAux_eq_selectFlags] at hv
  obtain ⟨k, hk1, _, hk3, hk4⟩ := flag_of_mem_selectFlags master _ v hv
  refine ⟨k, hk1, hk3, hk4, ?_⟩
  intro e he hpath
  obtain ⟨j, hj, hje⟩ := List.mem_iff_getElem.mp he
  have hjk : j < k := by
    have := hj
    rw [List.length_take] at this
    omega
  have hjl : j < master.length := by omega
  have hej : master[j] = e := by
    rw [← hje]
    exact (List.getElem_take master).symm
  have hjm : j < (master.map FileEntry.path).length := by simpa using hjl
  have hkm : k < (master.map FileEntry.path).length := by simpa using hk1
  have hpq : (master.map FileEntry.path)[j] = (master.map FileEntry.path)[k] := by
    simp only [List.getElem_map]
    rw [hej, hpath, ← hk3, List.getD_eq_getElem master default hk1]
  have := (List.Nodup.getElem_inj_iff hnodup).mp hpq
  omega

theorem toggle_unfold (s : AppState) (i : Nat) (v : FileEntry)
    (hsel : s.list_state = some i) (hget : s.visible_entries.get? i = some v) :
    s.toggle_selected_directory =
      some { master_entries := toggle_master_entry s.master_entries v.path,
             visible_entries :=
               regenerate_visible_entries (toggle_master_entry s.master_entries v.path),
             list_state :=
               match (regenerate_visible_entries
                   (toggle_master_entry s.master_entries v.path)).findIdx?
                   (fun e => e.path = v.path) with
               | some new_index => some new_index
               | none =>
                 some (min i (usize_sub (regenerate_visible_entries
                   (toggle_master_entry s.master_entries v.path)).length 1)) } := by
  simp only [AppState.toggle_selected_directory, hsel, hget]

/-- Core of claim C3: from a consistent state with unique paths and a valid
selection, toggling re-resolves the selection by path: the selected path is
still visible and the new selection index is its position. -/
theorem toggle_selection_follows_path (s : AppState) (i : Nat)
    (hcons : s.visible_entries = regenerate_visible_entries s.master_entries)
    (hnodup : (s.master_entries.map FileEntry.path).Nodup)
    (hsel : s.list_state = some i) (hi : i < s.visible_entries.length) :
    ∃ t j, s.toggle_selected_directory = some t ∧
      t.visible_entries.findIdx?
        (fun e => e.path = (s.visible_entries.getD i default).path) = some j ∧
      t.list_state = some j ∧ j < t.visible_entries.length := by
  set v := s.visible_entries.getD i default with hvdef
  have hget : s.visible_entries.get? i = some v := by
    rw [List.get?_eq_getElem?, List.getElem?_eq_getElem hi, hvdef,
      List.getD_eq_getElem _ _ hi]
  have hvmem : v ∈ regenerate_visible_entries s.master_entries := by
    rw [← hcons, hvdef, List.getD_eq_getElem _ _ hi]
    exact List.getElem_mem hi
  obtain ⟨k, hk1, hk2, hk3, hk4⟩ := visible_entry_position s.master_entries hnodup v hvmem
  have hdecomp : s.master_entries
      = s.master_entries.take k ++ v :: s.master_entries.drop (k + 1) := by
    conv_lhs => rw [← List.take_append_drop k s.master_entries,
      List.drop_eq_getElem_cons hk1]
    rw [show s.master_entries[k] = v from by
      rw [← hk2, List.getD_eq_getElem _ _ hk1]]
  set m' := if v.is_dir then { v with is_expanded := !v.is_expanded } else v with hm'
  have hm'path : m'.path = v.path := by rw [hm']; split <;> rfl
  have hm'depth : m'.depth = v.depth := by rw [hm']; split <;> rfl
  have hlen_take : (s.master_entries.take k).length = k :=
    List.length_take_of_le (le_of_lt hk1)
  have hmaster' : toggle_master_entry s.master_entries v.path
      = s.master_entries.take k ++ m' :: s.master_entries.drop (k + 1) := by
    conv_lhs => rw [hdecomp]
    rw [toggle_master_append _ _ _ _ hk4 rfl, hm']
  have hflag' : (visFlagsAux []
      (toggle_master_entry s.master_entries v.path)).getD k false = true := by
    rw [hmaster']
    have hq := visFlag_toggle_eq (s.master_entries.take k)
      (s.master_entries.drop (k + 1)) (s.master_entries.drop (k + 1)) v m' hm'depth
    rw [hlen_take] at hq
    rw [hq, ← hdecomp]
    exact hk3
  have hlen' : k < (toggle_master_entry s.master_entries v.path).length := by
    rw [hmaster']
    simp only [List.length_append, List.length_cons, hlen_take]
    omega
  have hgetk : (toggle_master_entry s.master_entries v.path).getD k default = m' := by
    rw [hmaster', List.getD_append_right _ _ _ _ (by rw [hlen_take] : (s.master_entries.take k).length ≤ k), hlen_take]
    simp
  have hflagsLen : k < (visFlagsAux []
      (toggle_master_entry s.master_entries v.path)).length := by
    rw [visFlagsAux_length]
    exact hlen'
  have hmem' : m' ∈ regenerate_visible_entries
      (toggle_master_entry s.master_entries v.path) := by
    rw [regenerate_visible_entries, regenAux_eq_selectFlags]
    have hq := mem_selectFlags_of_flag (toggle_master_entry s.master_entries v.path) _
      k hlen' hflagsLen hflag'
    rwa [hgetk] at hq
  obtain ⟨j, hj⟩ := @findIdxQ_some_of_mem (fun e => e.path = v.path)
    (regenerate_visible_entries (toggle_master_entry s.master_entries v.path)) m' hmem' (by
    show decide (m'.path = v.path) = true
    rw [hm'path]
    simp)
  rw [toggle_unfold s i v hsel hget]
  simp only [hj]
  exact ⟨_, j, rfl, hj, rfl, findIdxQ_lt_length hj⟩

/-- Core of claim C10: toggling with a file (non-directory) selected leaves
the state exactly unchanged. -/
theorem toggle_on_file_noop (s : AppState) (i : Nat)
    (hcons : s.visible_entries = regenerate_visible_entries s.master_entries)
    (hnodup : (s.master_entries.map FileEntry.path).Nodup)
    (hsel : s.list_state = some i) (hi : i < s.visible_entries.length)
    (hfile : (s.visible_entries.getD i default).is_dir = false) :
    s.toggle_selected_directory = some s := by
  set v := s.visible_entries.getD i default with hvdef
  have hget : s.visible_entries.get? i = some v := by
    rw [List.get?_eq_getElem?, List.getElem?_eq_getElem hi, hvdef,
      List.getD_eq_getElem _ _ hi]
  have hvmem : v ∈ regenerate_visible_entries s.master_entries := by
    rw [← hcons, hvdef, List.getD_eq_getElem _ _ hi]
    exact List.getElem_mem hi
  obtain ⟨k, hk1, hk2, hk3, hk4⟩ := visible_entry_position s.master_entries hnodup v hvmem
  have hdecomp : s.master_entries
      = s.master_entries.take k ++ v :: s.master_entries.drop (k + 1) := by
    conv_lhs => rw [← List.take_append_drop k s.master_entries,
      List.drop_eq_getElem_cons hk1]
    rw [show s.master_entries[k] = v from by
      rw [← hk2, List.getD_eq_getElem _ _ hk1]]
  have hmaster' : toggle_master_entry s.master_entries v.path = s.master_entries := by
    conv_lhs => rw [hdecomp]
    rw [toggle_master_append _ _ _ _ hk4 rfl, if_neg (by rw [hfile]; exact Bool.false_ne_true)]
    exact hdecomp.symm
  have hnodupv : (s.visible_entries.map FileEntry.path).Nodup := by
    have hsub : s.visible_entries.Sublist s.master_entries := by
      rw [hcons]
      exact regenAux_sublist [] s.master_entries
    exact (hsub.map FileEntry.path).nodup hnodup
  have hfind : s.visible_entries.findIdx? (fun e => e.path = v.path) = some i := by
    apply findIdxQ_eq_of_unique hi
    · show decide ((s.visible_entries.getD i default).path = v.path) = true
      rw [← hvdef]
      simp
    · intro j hj hpj
      have hpj' : (s.visible_entries.getD j default).path = v.path := by
        simpa using hpj
      have hjm : j < (s.visible_entries.map FileEntry.path).length := by simpa using hj
      have him : i < (s.visible_entries.map FileEntry.path).length := by simpa using hi
      have hq : (s.visible_entries.map FileEntry.path)[j]
          = (s.visible_entries.map FileEntry.path)[i] := by
        simp only [List.getElem_map]
        rw [← List.getD_eq_getElem _ default hj, ← List.getD_eq_getElem _ default hi,
          hpj', hvdef]
      exact (List.Nodup.getElem_inj_iff hnodupv).mp hq
  rw [toggle_unfold s i v hsel hget, hmaster', ← hcons, hfind]
  obtain ⟨ms, vs, ls⟩ := s
  simp only [Option.some.injEq]
  simp only at hsel
  rw [hsel]

/-! ## Index-based view of the visibility walk (claim C7) -/

/-- The stack contents of the visibility walk just before processing entry
`k` (before the popping for entry `k`). -/
def stackAt (l : List FileEntry) : Nat → List Bool
  | 0 => []
  | k + 1 =>
    let e := l.getD k default
    let stack1 := popStack (stackAt l k) e.depth
    if e.is_dir then e.is_expanded :: stack1 else stack1

/-- The visibility flag the walk computes for entry `k`. -/
def flagAt (l : List FileEntry) (k : Nat) : Bool :=
  (popStack (stackAt l k) (l.getD k default).depth).all (fun x => x)

theorem popStack_eq_drop : ∀ (st : List Bool) (d : Nat),
    popStack st d = st.drop (st.length + 1 - d)
  | [], d => by simp [popStack]
  | b :: rest, d => by
    rw [popStack]
    split
    · rw [popStack_eq_drop]
      have h1 : rest.length + 1 + 1 - d = (rest.length + 1 - d) + 1 := by omega
      simp only [List.length_cons, h1, List.drop_succ_cons]
    · have h1 : rest.length + 1 + 1 - d = 0 := by omega
      simp only [List.length_cons, h1, List.drop_zero]

theorem popStack_length (st : List Bool) (d : Nat) :
    (popStack st d).length = min st.length (d - 1) := by
  rw [popStack_eq_drop, List.length_drop]
  omega

theorem popStack_getD (st : List Bool) (d t : Nat) (ht : t < (popStack st d).length) :
    (popStack st d).getD t false = st.getD (st.length + 1 - d + t) false := by
  rw [popStack_eq_drop] at ht ⊢
  rw [List.length_drop] at ht
  rw [List.getD_eq_getElem _ _ (by rw [List.length_drop]; exact ht),
    List.getD_eq_getElem _ _ (by omega)]
  exact List.getElem_drop st

theorem visFlags_drop (l : List FileEntry) (k : Nat) (hk : k < l.length) :
    visFlagsAux (stackAt l k) (l.drop k) =
      flagAt l k :: visFlagsAux (stackAt l (k + 1)) (l.drop (k + 1)) := by
  rw [List.drop_eq_getElem_cons hk]
  show visFlagsAux (stackAt l k) (l[k] :: l.drop (k + 1)) = _
  rw [show l[k] = l.getD k default from (List.getD_eq_getElem l default hk).symm]
  rfl

theorem visFlags_getD_flagAt (l : List FileEntry) :
    ∀ (j k : Nat), k + j < l.length →
      (visFlagsAux (stackAt l k) (l.drop k)).getD j false = flagAt l (k + j) := by
  intro j
  induction j with
  | zero =>
    intro k hk
    rw [visFlags_drop l k (by omega)]
    rfl
  | succ j ih =>
    intro k hk
    rw [visFlags_drop l k (by omega), List.getD_cons_succ]
    have := ih (k + 1) (by omega)
    rw [this]
    congr 1
    omega

theorem visFlags_getD_flagAt_zero (l : List FileEntry) (k : Nat) (hk : k < l.length) :
    (visFlagsAux [] l).getD k false = flagAt l k := by
  have := visFlags_getD_flagAt l k 0 (by omega)
  simpa using this

/-- The pre-order depth invariant of the master sequence (spec, section 3):
depths are positive, the first entry has depth 1, depth rises by at most one
step at a time, and a rise only follows a directory. -/
def preorderWF (l : List FileEntry) : Prop :=
  (∀ e ∈ l, 1 ≤ e.depth) ∧
  (0 < l.length → (l.getD 0 default).depth = 1) ∧
  (∀ k, k < l.length → k + 1 < l.length →
    (l.getD (k + 1) default).depth ≤ (l.getD k default).depth + 1 ∧
    ((l.getD (k + 1) default).depth = (l.getD k default).depth + 1 →
      (l.getD k default).is_dir = true))

instance preorderWF_decidable (l : List FileEntry) : Decidable (preorderWF l) := by
  unfold preorderWF
  infer_instance

/-- Position `j` holds an ancestor directory of the entry at position `k`:
it precedes `k`, is a directory, is strictly shallower, and no entry between
them is at its depth or shallower (it is found walking backward from `k`). -/
def isAncestorAt (l : List FileEntry) (j k : Nat) : Prop :=
  j < k ∧ (l.getD j default).is_dir = true ∧
  (l.getD j default).depth < (l.getD k default).depth ∧
  ∀ i, i < k → j < i → (l.getD j default).depth < (l.getD i default).depth

instance isAncestorAt_decidable (l : List FileEntry) (j k : Nat) :
    Decidable (isAncestorAt l j k) := by
  unfold isAncestorAt
  infer_instance

/-- The number of stack entries just before processing entry `k`. -/
def refDepth (l : List FileEntry) : Nat → Nat
  | 0 => 0
  | k + 1 =>
    if (l.getD k default).is_dir then (l.getD k default).depth
    else (l.getD k default).depth - 1

/-- The stack invariant of the visibility walk: before processing entry `k`
the stack holds, from the top, the `is_expanded` flags of the ancestor
directories of the gap after entry `k - 1`, deepest first. -/
def stackInv (l : List FileEntry) (k : Nat) : Prop :=
  (stackAt l k).length = refDepth l k ∧
  ∀ t, t < (stackAt l k).length →
    ∃ j, j < k ∧ (l.getD j default).depth = refDepth l k - t ∧
      (l.getD j default).is_dir = true ∧
      (stackAt l k).getD t false = (l.getD j default).is_expanded ∧
      ∀ i, i < k → j < i → (l.getD j default).depth < (l.getD i default).depth

theorem depth_pos_of_wf {l : List FileEntry} (hwf : preorderWF l) {k : Nat}
    (hk : k < l.length) : 1 ≤ (l.getD k default).depth := by
  apply hwf.1
  rw [List.getD_eq_getElem l default hk]
  exact List.getElem_mem hk

theorem refDepth_ge {l : List FileEntry} (hwf : preorderWF l) {k : Nat}
    (hk : k < l.length) : (l.getD k default).depth ≤ refDepth l k + 1 := by
  cases k with
  | zero =>
    rw [hwf.2.1 (by omega)]
    simp [refDepth]
  | succ k' =>
    obtain ⟨hstep, hrise⟩ := hwf.2.2 k' (by omega) hk
    by_cases hdir : (l.getD k' default).is_dir = true
    · rw [refDepth, if_pos hdir]
      omega
    · rw [refDepth, if_neg hdir]
      have hlt : (l.getD (k' + 1) default).depth ≤ (l.getD k' default).depth := by
        rcases Nat.lt_or_ge (l.getD (k' + 1) default).depth
            ((l.getD k' default).depth + 1) with h | h
        · omega
        · exact absurd (hrise (by omega)) hdir
      have := depth_pos_of_wf hwf (by omega : k' < l.length)
      omega

theorem stackInv_all {l : List FileEntry} (hwf : preorderWF l) :
    ∀ k, k ≤ l.length → stackInv l k := by
  intro k
  induction k with
  | zero =>
    intro _
    exact ⟨rfl, by intro t ht; simp [stackAt] at ht⟩
  | succ k ih =>
    intro hk1
    have hk : k < l.length := by omega
    obtain ⟨ihlen, ihspec⟩ := ih (by omega)
    have hd1 : 1 ≤ (l.getD k default).depth := depth_pos_of_wf hwf hk
    have hdref : (l.getD k default).depth ≤ refDepth l k + 1 := refDepth_ge hwf hk
    have hpoplen : (popStack (stackAt l k) (l.getD k default).depth).length
        = (l.getD k default).depth - 1 := by
      rw [popStack_length, ihlen]
      omega
    have hshift : (stackAt l k).length + 1 - (l.getD k default).depth
        = refDepth l k + 1 - (l.getD k default).depth := by rw [ihlen]
    have hpopspec : ∀ t, t < (l.getD k default).depth - 1 →
        ∃ j, j < k ∧ (l.getD j default).depth = (l.getD k default).depth - 1 - t ∧
          (l.getD j default).is_dir = true ∧
          (popStack (stackAt l k) (l.getD k default).depth).getD t false
            = (l.getD j default).is_expanded ∧
          ∀ i, i < k → j < i → (l.getD j default).depth < (l.getD i default).depth := by
      intro t ht
      have ht2 : t < (popStack (stackAt l k) (l.getD k default).depth).length := by
        rw [hpoplen]; exact ht
      have hget := popStack_getD (stackAt l k) (l.getD k default).depth t ht2
      rw [hshift] at hget
      have ht0 : refDepth l k + 1 - (l.getD k default).depth + t < (stackAt l k).length := by
        rw [ihlen]; omega
      obtain ⟨j, hj1, hj2, hj3, hj4, hj5⟩ := ihspec _ ht0
      refine ⟨j, hj1, ?_, hj3, ?_, hj5⟩
      · rw [hj2]; omega
      · rw [hget, hj4]
    constructor
    · show (stackAt l (k + 1)).length = refDepth l (k + 1)
      simp only [stackAt]
      split
      · rename_i hdir
        rw [List.length_cons, hpoplen, refDepth, if_pos hdir]
        omega
      · rename_i hdir
        rw [hpoplen, refDepth, if_neg hdir]
    · intro t ht
      simp only [stackAt] at ht ⊢
      by_cases hdir : (l.getD k default).is_dir = true
      · rw [if_pos hdir] at ht ⊢
        cases t with
        | zero =>
          refine ⟨k, by omega, ?_, hdir, by simp, ?_⟩
          · rw [refDepth, if_pos hdir]
            omega
          · intro i hi1 hi2; omega
        | succ t' =>
          rw [List.length_cons] at ht
          rw [List.getD_cons_succ]
          have ht' : t' < (l.getD k default).depth - 1 := by
            rw [hpoplen] at ht; omega
          obtain ⟨j, hj1, hj2, hj3, hj4, hj5⟩ := hpopspec t' ht'
          refine ⟨j, by omega, ?_, hj3, hj4, ?_⟩
          · rw [hj2, refDepth, if_pos hdir]
            omega
          · intro i hi1 hi2
            rcases Nat.lt_or_ge i k with h | h
            · exact hj5 i h hi2
            · have : i = k := by omega
              subst this
              omega
      · rw [if_neg hdir] at ht ⊢
        have ht' : t < (l.getD k default).depth - 1 := by
          rw [hpoplen] at ht; exact ht
        obtain ⟨j, hj1, hj2, hj3, hj4, hj5⟩ := hpopspec t ht'
        refine ⟨j, by omega, ?_, hj3, hj4, ?_⟩
        · rw [hj2, refDepth, if_neg hdir]
        · intro i hi1 hi2
          rcases Nat.lt_or_ge i k with h | h
          · exact hj5 i h hi2
          · have : i = k := by omega
            subst this
            have := depth_pos_of_wf hwf hk
            omega

theorem all_id_iff_getD : ∀ bs : List Bool,
    (bs.all (fun x => x) = true ↔ ∀ t, t < bs.length → bs.getD t false = true)
  | [] => by simp
  | b :: bs => by
    simp only [List.all_cons, Bool.and_eq_true]
    constructor
    · rintro ⟨hb, hrest⟩ t ht
      cases t with
      | zero => simpa using hb
      | succ t' =>
        rw [List.getD_cons_succ]
        exact (all_id_iff_getD bs).1 hrest t' (by simpa using ht)
    · intro h
      refine ⟨by simpa using h 0 (by simp), (all_id_iff_getD bs).2 ?_⟩
      intro t ht
      have := h (t + 1) (by simpa using ht)
      rwa [List.getD_cons_succ] at this

theorem popped_length {l : List FileEntry} (hwf : preorderWF l) {k : Nat}
    (hk : k < l.length) :
    (popStack (stackAt l k) (l.getD k default).depth).length
      = (l.getD k default).depth - 1 := by
  rw [popStack_length, (stackInv_all hwf k (by omega)).1]
  have := refDepth_ge hwf hk
  omega

/-- Every slot of the popped stack for entry `k` carries the `is_expanded`
flag of an ancestor directory of `k`, at depth decreasing from the top. -/
theorem popped_spec {l : List FileEntry} (hwf : preorderWF l) {k : Nat}
    (hk : k < l.length) :
    ∀ t, t < (l.getD k default).depth - 1 →
      ∃ j, isAncestorAt l j k ∧
        (l.getD j default).depth = (l.getD k default).depth - 1 - t ∧
        (popStack (stackAt l k) (l.getD k default).depth).getD t false
          = (l.getD j default).is_expanded := by
  intro t ht
  obtain ⟨ihlen, ihspec⟩ := stackInv_all hwf k (by omega)
  have hd1 : 1 ≤ (l.getD k default).depth := depth_pos_of_wf hwf hk
  have hdref : (l.getD k default).depth ≤ refDepth l k + 1 := refDepth_ge hwf hk
  have ht2 : t < (popStack (stackAt l k) (l.getD k default).depth).length := by
    rw [popped_length hwf hk]; exact ht
  have hget := popStack_getD (stackAt l k) (l.getD k default).depth t ht2
  rw [ihlen] at hget
  have ht0 : refDepth l k + 1 - (l.getD k default).depth + t < (stackAt l k).length := by
    rw [ihlen]; omega
  obtain ⟨j, hj1, hj2, hj3, hj4, hj5⟩ := ihspec _ ht0
  have hdepth : (l.getD j default).depth = (l.getD k default).depth - 1 - t := by
    rw [hj2]; omega
  refine ⟨j, ⟨hj1, hj3, by omega, hj5⟩, hdepth, ?_⟩
  rw [hget, hj4]

theorem ancestor_unique {l : List FileEntry} {j j' k : Nat}
    (h : isAncestorAt l j k) (h' : isAncestorAt l j' k)
    (hd : (l.getD j default).depth = (l.getD j' default).depth) : j = j' := by
  rcases Nat.lt_trichotomy j j' with hlt | hEq | hgt
  · have := h.2.2.2 j' h'.1 hlt
    omega
  · exact hEq
  · have := h'.2.2.2 j h.1 hgt
    omega

/-- Characterization of the visibility flag: entry `k` is kept iff every
ancestor directory of `k` is expanded. -/
theorem flagAt_iff_ancestors {l : List FileEntry} (hwf : preorderWF l) {k : Nat}
    (hk : k < l.length) :
    flagAt l k = true ↔
      ∀ j, isAncestorAt l j k → (l.getD j default).is_expanded = true := by
  rw [flagAt, all_id_iff_getD]
  have hlen := popped_length hwf hk
  constructor
  · intro hall j hj
    have hjk : j < k := hj.1
    have hdj : (l.getD j default).depth < (l.getD k default).depth := hj.2.2.1
    have hdj1 : 1 ≤ (l.getD j default).depth :=
      depth_pos_of_wf hwf (by omega : j < l.length)
    obtain ⟨j', hj', hdepth', hflag'⟩ := popped_spec hwf hk
      ((l.getD k default).depth - 1 - (l.getD j default).depth) (by omega)
    have hsame : (l.getD j default).depth = (l.getD j' default).depth := by omega
    have : j = j' := ancestor_unique hj hj' hsame
    subst this
    rw [← hflag']
    exact hall _ (by omega)
  · intro hanc t ht
    rw [hlen] at ht
    obtain ⟨j, hj, _, hflag⟩ := popped_spec hwf hk t ht
    rw [hflag]
    exact hanc j hj

/-- Entries at depth 1 always pass the visibility test. -/
theorem flagAt_depth_one {l : List FileEntry} {k : Nat}
    (h1 : (l.getD k default).depth = 1) : flagAt l k = true := by
  rw [flagAt, h1]
  have : (popStack (stackAt l k) 1).length = 0 := by
    rw [popStack_length]
    omega
  rw [List.length_eq_zero.1 this]
  rfl

/-- Membership in the recomputed visible sequence, positionally. -/
theorem mem_regen_iff (l : List FileEntry) (e : FileEntry) :
    e ∈ regenerate_visible_entries l ↔
      ∃ k, k < l.length ∧ l.getD k default = e ∧ flagAt l k = true := by
  rw [regenerate_visible_entries, regenAux_eq_selectFlags]
  constructor
  · intro h
    obtain ⟨k, h1, _, h3, h4⟩ := flag_of_mem_selectFlags _ _ _ h
    exact ⟨k, h1, h3, by rw [← visFlags_getD_flagAt_zero l k h1]; exact h4⟩
  · rintro ⟨k, h1, h2, h3⟩
    have := mem_selectFlags_of_flag l (visFlagsAux [] l) k h1
      (by rw [visFlagsAux_length]; exact h1)
      (by rw [visFlags_getD_flagAt_zero l k h1]; exact h3)
    rwa [h2] at this

/-! ## Remaining comparator helpers for the claims -/

theorem lexCmpBy_append_common {cmp : α → α → Ordering} (hrefl : ∀ x, cmp x x = .eq) :
    ∀ (p u v : List α), lexCmpBy cmp (p ++ u) (p ++ v) = lexCmpBy cmp u v
  | [], u, v => rfl
  | x :: p, u, v => by
    rw [List.cons_append, List.cons_append, lexCmpBy_cons, hrefl x]
    exact lexCmpBy_append_common hrefl p u v

theorem tokCmp_refl (t : NatTok) : tokCmp t t = .eq := by
  cases t with
  | num v => exact natCompare_self v
  | ch c => exact natCompare_self c.toNat

theorem pcCmp_refl (c : Char) : pcCmp c c = .eq := by
  show (natCompare (char_sort_priority c) (char_sort_priority c)).then
    (natCompare c.toNat c.toNat) = .eq
  rw [natCompare_self, natCompare_self]
  rfl

/-! ## The claims -/

/-- C1 counterexample: with the primary key `modified_time`, an entry with
unreadable modification time compared against one with a known time yields
`gt` — the unreadable entry sorts AFTER the known one, not before it as the
claim states. -/
theorem C1_counterexample :
    compare_by_modified ⟨"u", some false, none, none⟩ ⟨"k", some false, none, some 5⟩
        ≠ Ordering.lt ∧
    compare_by_modified ⟨"u", some false, none, none⟩ ⟨"k", some false, none, some 5⟩
        = Ordering.gt ∧
    compare_entries ⟨"u", some false, none, none⟩ ⟨"k", some false, none, some 5⟩
        { sort_type := SortType.Modified } = Ordering.gt := by
  decide

/-- C1 (amended): when the primary sort key is `modified_time` (and no
dotfiles-first/directories-first precedence applies), an entry with an
unreadable modification time sorts AFTER any entry with a known one, a known
one sorts before an unreadable one, and two unreadable entries compare
equal. -/
theorem C1_amended_modified_time_order (a b : DirEntry) :
    (∀ options : SortOptions, options.sort_type = SortType.Modified →
      options.dotfiles_first = false → options.directories_first = false →
      compare_entries a b options = compare_by_modified a b) ∧
    (a.metadata_modified = none → b.metadata_modified = none →
      compare_by_modified a b = Ordering.eq) ∧
    (∀ t, a.metadata_modified = none → b.metadata_modified = some t →
      compare_by_modified a b = Ordering.gt) ∧
    (∀ t, a.metadata_modified = some t → b.metadata_modified = none →
      compare_by_modified a b = Ordering.lt) := by
  refine ⟨?_, ?_, ?_, ?_⟩
  · intro options h1 h2 h3
    simp [compare_entries, compare_primary, h1, h2, h3]
  · intro h1 h2
    simp [compare_by_modified, h1, h2]
  · intro t h1 h2
    simp [compare_by_modified, h1, h2]
  · intro t h1 h2
    simp [compare_by_modified, h1, h2]

theorem C1_witness :
    compare_by_modified ⟨"a", some false, none, none⟩ ⟨"b", some false, none, none⟩
      = Ordering.eq :=
  (C1_amended_modified_time_order ⟨"a", some false, none, none⟩
    ⟨"b", some false, none, none⟩).2.1 rfl rfl

/-- C2 (code behavior at the failing input): on an empty visible sequence
with no selection, `next` and `previous` are NOT no-ops — they set the
selection index to 0 on the empty list — and a subsequent
`toggle_expansion` indexes `visible_entries[0]` out of bounds (a panic,
modelled as `none`). This refutes the claim that all operations degrade to
no-ops returning a selection-less state. -/
theorem C2_empty_sequence_behavior :
    (AppState.next ⟨[], [], none⟩).list_state = some 0 ∧
    AppState.next ⟨[], [], none⟩ ≠ ⟨[], [], none⟩ ∧
    (AppState.previous ⟨[], [], none⟩).list_state = some 0 ∧
    AppState.toggle_selected_directory (AppState.next ⟨[], [], none⟩) = none := by
  decide

/-- C4 counterexample: with `natural_sort` set and `case_sensitive` false,
name comparison does NOT fold case: comparing names `"B"` and `"a"` yields
`lt` (code point order), while the case-folded comparison yields `gt`. -/
theorem C4_counterexample :
    compare_by_name ⟨"B", some false, none, none⟩ ⟨"a", some false, none, none⟩
        { natural_sort := true } = Ordering.lt ∧
    compare_case_insensitive "B" "a" = Ordering.gt ∧
    compare_by_name ⟨"B", some false, none, none⟩ ⟨"a", some false, none, none⟩
        { natural_sort := true } ≠ compare_case_insensitive "B" "a" := by
  decide

/-- C4 (amended): when `natural_sort` is set, name comparison uses the
natural comparator regardless of `case_sensitive` (no case folding is
applied); embedded digit runs compare as numbers, so `"file2"` orders before
`"file10"`. -/
theorem C4_amended_natural_sort (options : SortOptions) (h : options.natural_sort = true) :
    (∀ a b : DirEntry, compare_by_name a b options
        = compare_natural a.file_name b.file_name) ∧
    (∀ (p : List NatTok) (v w : Nat) (s t : List NatTok), v < w →
      lexCmpBy tokCmp (p ++ NatTok.num v :: s) (p ++ NatTok.num w :: t) = Ordering.lt) ∧
    compare_natural "file2" "file10" = Ordering.lt := by
  refine ⟨?_, ?_, by decide⟩
  · intro a b
    simp [compare_by_name, h]
  · intro p v w s t hvw
    rw [lexCmpBy_append_common tokCmp_refl, lexCmpBy_cons]
    have hh : tokCmp (NatTok.num v) (NatTok.num w) = Ordering.lt := by
      show natCompare v w = Ordering.lt
      exact natCompare_eq_lt.2 hvw
    rw [hh]

theorem C4_witness :
    compare_natural "file2" "file10" = Ordering.lt :=
  (C4_amended_natural_sort { natural_sort := true } rfl).2.2

/-- C5: with `dotfiles_first` set, the comparator applies a four-way
priority regardless of the other options (superseding `directories_first`):
dot-directories (bucket 0), regular directories (1), dot-files (2), regular
files (3); entries in the same bucket fall through to the primary key; and
the spec scenario entries order as
`.hidden_dir, visible_dir, .hidden.txt, visible.txt`. -/
theorem C5_dotfiles_first_priority (options : SortOptions)
    (h : options.dotfiles_first = true) :
    (∀ a b : DirEntry, entry_bucket options a < entry_bucket options b →
      compare_entries a b options = Ordering.lt) ∧
    (∀ a b : DirEntry, entry_bucket options b < entry_bucket options a →
      compare_entries a b options = Ordering.gt) ∧
    (∀ a b : DirEntry, entry_bucket options a = entry_bucket options b →
      compare_entries a b options = compare_primary a b options) ∧
    (∀ e : DirEntry, entry_bucket options e =
      (if is_dotfile e then (if e.file_type_is_dir.getD false then 0 else 2)
       else (if e.file_type_is_dir.getD false then 1 else 3))) ∧
    sort_entries
      [⟨"visible.txt", some false, none, none⟩, ⟨".hidden.txt", some false, none, none⟩,
       ⟨"visible_dir", some true, none, none⟩, ⟨".hidden_dir", some true, none, none⟩]
      { dotfiles_first := true } =
      [⟨".hidden_dir", some true, none, none⟩, ⟨"visible_dir", some true, none, none⟩,
       ⟨".hidden.txt", some false, none, none⟩, ⟨"visible.txt", some false, none, none⟩] := by
  refine ⟨?_, ?_, ?_, ?_, by decide⟩
  · intro a b hlt
    rw [compare_entries_eq_then, natCompare_eq_lt.2 hlt]
    rfl
  · intro a b hgt
    rw [compare_entries_eq_then, natCompare_eq_gt.2 hgt]
    rfl
  · intro a b hEq
    rw [compare_entries_eq_then, hEq, natCompare_self]
    rfl
  · intro e
    rcases h1 : is_dotfile e with _ | _ <;>
      rcases h2 : e.file_type_is_dir.getD false with _ | _ <;>
      simp [entry_bucket, h, h1, h2]

theorem C5_witness :
    compare_entries ⟨".hidden_dir", some true, none, none⟩
      ⟨"visible.txt", some false, none, none⟩ { dotfiles_first := true } = Ordering.lt :=
  (C5_dotfiles_first_priority { dotfiles_first := true } rfl).1
    ⟨".hidden_dir", some true, none, none⟩ ⟨"visible.txt", some false, none, none⟩
    (by decide)

/-- C3: after `toggle_expansion` flips the selected directory and the
visible sequence is recomputed, the selection is re-resolved by path: from
any consistent state with unique paths and an in-range selection, the
previously selected path is still visible, the new selection index is that
path's position in the new visible sequence, and it is never out of range
(the nearest-preceding fallback of the claim concerns the remaining case,
in which the path is not found, which does not arise). -/
theorem C3_toggle_reresolves_selection (s : AppState) (i : Nat)
    (hcons : s.visible_entries = regenerate_visible_entries s.master_entries)
    (hnodup : (s.master_entries.map FileEntry.path).Nodup)
    (hsel : s.list_state = some i) (hi : i < s.visible_entries.length) :
    ∃ t j, s.toggle_selected_directory = some t ∧
      t.visible_entries.findIdx?
        (fun e => e.path = (s.visible_entries.getD i default).path) = some j ∧
      t.list_state = some j ∧ j < t.visible_entries.length :=
  toggle_selection_follows_path s i hcons hnodup hsel hi

theorem C3_witness : ∃ t j,
    AppState.toggle_selected_directory
      ⟨[⟨"src", 1, true, false, none, none, none⟩,
        ⟨"src/main.rs", 2, false, false, none, none, none⟩,
        ⟨"README.md", 1, false, false, none, none, none⟩],
       [⟨"src", 1, true, false, none, none, none⟩,
        ⟨"README.md", 1, false, false, none, none, none⟩], some 0⟩ = some t ∧
    t.list_state = some j ∧ j < t.visible_entries.length := by
  obtain ⟨t, j, h1, _, h3, h4⟩ := C3_toggle_reresolves_selection
    ⟨[⟨"src", 1, true, false, none, none, none⟩,
      ⟨"src/main.rs", 2, false, false, none, none, none⟩,
      ⟨"README.md", 1, false, false, none, none, none⟩],
     [⟨"src", 1, true, false, none, none, none⟩,
      ⟨"README.md", 1, false, false, none, none, none⟩], some 0⟩ 0
    (by decide) (by decide) rfl (by decide)
  exact ⟨t, j, h1, h3, h4⟩

/-- C6: the `reverse` flag inverts the final result of the whole per-pair
comparison (bucket precedence included), and for any input in which no two
elements compare equal under the non-reversed configuration, sorting with
`reverse` set yields the exact element-wise reverse of the non-reversed
sort. -/
theorem C6_reverse_inverts_sort (options : SortOptions) (l : List DirEntry)
    (hrev : options.reverse = false)
    (hne : l.Pairwise (fun a b => compare_entries a b options ≠ Ordering.eq)) :
    (∀ (o : SortOptions) (a b : DirEntry), o.reverse = true →
      sort_comparator o a b = (compare_entries a b o).swap) ∧
    sort_entries l { options with reverse := true } = (sort_entries l options).reverse := by
  constructor
  · intro o a b ho
    simp [sort_comparator, ho]
  · have hignore : ∀ a b : DirEntry,
        compare_entries a b { options with reverse := true } = compare_entries a b options := by
      rcases options with ⟨st, df, cs, ns, rv, dotf⟩
      intro a b
      rfl
    have h1 : ∀ a b : DirEntry, sort_comparator { options with reverse := true } a b
        = (compare_entries a b options).swap := by
      intro a b
      simp [sort_comparator, hignore a b]
    have h2 : ∀ a b : DirEntry, sort_comparator options a b = compare_entries a b options := by
      intro a b
      simp [sort_comparator, hrev]
    have hmain := insertionSort_swap_eq_reverse (transCmp_compare_entries options) l hne
    calc sort_entries l { options with reverse := true }
        = l.insertionSort (fun a b => (compare_entries a b options).swap ≠ Ordering.gt) := by
          unfold sort_entries
          exact insertionSort_congr (fun a b => by rw [h1 a b]) l
      _ = (l.insertionSort (fun a b => compare_entries a b options ≠ Ordering.gt)).reverse :=
          hmain
      _ = (sort_entries l options).reverse := by
          unfold sort_entries
          exact congrArg List.reverse (insertionSort_congr (fun a b => by rw [h2 a b]) l).symm

theorem C6_witness :
    sort_entries
      [⟨"b", some false, none, none⟩, ⟨"a", some false, none, none⟩,
       ⟨"c", some false, none, none⟩] { reverse := true } =
    (sort_entries
      [⟨"b", some false, none, none⟩, ⟨"a", some false, none, none⟩,
       ⟨"c", some false, none, none⟩] {}).reverse :=
  (C6_reverse_inverts_sort {}
    [⟨"b", some false, none, none⟩, ⟨"a", some false, none, none⟩,
     ⟨"c", some false, none, none⟩] rfl (by decide)).2

/-- C7: for every master sequence satisfying the pre-order depth invariant
and every assignment of the expansion flags, the recomputed visible sequence
contains entry `k` iff every ancestor directory of `k` is expanded, and
every depth-1 entry is always visible. -/
theorem C7_visibility_iff_ancestors_expanded (l : List FileEntry) (hwf : preorderWF l) :
    (∀ k, k < l.length → (flagAt l k = true ↔
      ∀ j, isAncestorAt l j k → (l.getD j default).is_expanded = true)) ∧
    (∀ k, k < l.length → (l.getD k default).depth = 1 → flagAt l k = true) ∧
    (∀ e, e ∈ regenerate_visible_entries l ↔
      ∃ k, k < l.length ∧ l.getD k default = e ∧ flagAt l k = true) :=
  ⟨fun _ hk => flagAt_iff_ancestors hwf hk,
   fun _ _ h1 => flagAt_depth_one h1,
   fun e => mem_regen_iff l e⟩

theorem C7_witness :
    flagAt [⟨"src", 1, true, false, none, none, none⟩,
      ⟨"src/main.rs", 2, false, false, none, none, none⟩,
      ⟨"README.md", 1, false, false, none, none, none⟩] 2 = true :=
  (C7_visibility_iff_ancestors_expanded
    [⟨"src", 1, true, false, none, none, none⟩,
     ⟨"src/main.rs", 2, false, false, none, none, none⟩,
     ⟨"README.md", 1, false, false, none, none, none⟩] (by decide)).2.1 2
    (by decide) (by decide)

/-- C8: with `case_sensitive` set and `natural_sort` unset, name comparison
is the custom default order: a four-class character priority (digits 0,
uppercase 1, lowercase 2, others 3) compared position by position, equal
priorities compared by code point, and a full prefix ordered by (byte)
length. -/
theorem C8_case_sensitive_default_order (options : SortOptions)
    (hc : options.case_sensitive = true) (hn : options.natural_sort = false) :
    (∀ a b : DirEntry, compare_by_name a b options
        = compare_default_order a.file_name b.file_name) ∧
    (∀ c : Char, c.isDigit = true → char_sort_priority c = 0) ∧
    (∀ c : Char, c.isDigit = false → c.isUpper = true → char_sort_priority c = 1) ∧
    (∀ c : Char, c.isDigit = false → c.isUpper = false → c.isLower = true →
      char_sort_priority c = 2) ∧
    (∀ c : Char, c.isDigit = false → c.isUpper = false → c.isLower = false →
      char_sort_priority c = 3) ∧
    (∀ (p : List Char) (ca cb : Char) (s t : List Char),
      char_sort_priority ca < char_sort_priority cb →
      compare_default_order (String.mk (p ++ ca :: s)) (String.mk (p ++ cb :: t))
        = Ordering.lt) ∧
    (∀ (p : List Char) (ca cb : Char) (s t : List Char),
      char_sort_priority ca = char_sort_priority cb → ca.toNat < cb.toNat →
      compare_default_order (String.mk (p ++ ca :: s)) (String.mk (p ++ cb :: t))
        = Ordering.lt) ∧
    (∀ (p s : List Char), s ≠ [] →
      compare_default_order (String.mk p) (String.mk (p ++ s)) = Ordering.lt) := by
  refine ⟨?_, ?_, ?_, ?_, ?_, ?_, ?_, ?_⟩
  · intro a b
    simp [compare_by_name, hc, hn]
  · intro c h1
    simp [char_sort_priority, h1]
  · intro c h1 h2
    simp [char_sort_priority, h1, h2]
  · intro c h1 h2 h3
    simp [char_sort_priority, h1, h2, h3]
  · intro c h1 h2 h3
    simp [char_sort_priority, h1, h2, h3]
  · intro p ca cb s t hp
    rw [compare_default_order_eq_lex]
    show lexCmpBy pcCmp (p ++ ca :: s) (p ++ cb :: t) = Ordering.lt
    rw [lexCmpBy_append_common pcCmp_refl, lexCmpBy_cons]
    have hh : pcCmp ca cb = Ordering.lt := by
      show (natCompare (char_sort_priority ca) (char_sort_priority cb)).then
        (charCmp ca cb) = Ordering.lt
      rw [natCompare_eq_lt.2 hp]
      rfl
    rw [hh]
  · intro p ca cb s t hp hcc
    rw [compare_default_order_eq_lex]
    show lexCmpBy pcCmp (p ++ ca :: s) (p ++ cb :: t) = Ordering.lt
    rw [lexCmpBy_append_common pcCmp_refl, lexCmpBy_cons]
    have hh : pcCmp ca cb = Ordering.lt := by
      show (natCompare (char_sort_priority ca) (char_sort_priority cb)).then
        (natCompare ca.toNat cb.toNat) = Ordering.lt
      rw [natCompare_eq_eq.2 hp, natCompare_eq_lt.2 hcc]
      rfl
    rw [hh]
  · intro p s hs
    rw [compare_default_order_eq_lex]
    show lexCmpBy pcCmp p (p ++ s) = Ordering.lt
    have h0 := lexCmpBy_append_common pcCmp_refl p [] s
    rw [List.append_nil] at h0
    rw [h0]
    cases s with
    | nil => exact absurd rfl hs
    | cons c cs => rfl

theorem C8_witness :
    compare_default_order (String.mk ([] ++ '1' :: "file".toList))
      (String.mk ([] ++ 'A' :: "file".toList)) = Ordering.lt :=
  (C8_case_sensitive_default_order { case_sensitive := true } rfl rfl).2.2.2.2.2.1
    [] '1' 'A' "file".toList "file".toList (by decide)

/-- C9: for every master sequence (with the positive depths the walker
guarantees) and every assignment of expansion flags, the recomputed visible
sequence is an order-preserving subsequence of the master sequence, each
visible entry being one of the master entries (equal in all fields). -/
theorem C9_visible_subsequence (l : List FileEntry) (_hdepth : ∀ e ∈ l, 1 ≤ e.depth) :
    (regenerate_visible_entries l).Sublist l :=
  regenAux_sublist [] l

theorem C9_witness :
    (regenerate_visible_entries [⟨"src", 1, true, false, none, none, none⟩,
      ⟨"src/main.rs", 2, false, false, none, none, none⟩,
      ⟨"README.md", 1, false, false, none, none, none⟩]).Sublist
      [⟨"src", 1, true, false, none, none, none⟩,
       ⟨"src/main.rs", 2, false, false, none, none, none⟩,
       ⟨"README.md", 1, false, false, none, none, none⟩] :=
  C9_visible_subsequence
    [⟨"src", 1, true, false, none, none, none⟩,
     ⟨"src/main.rs", 2, false, false, none, none, none⟩,
     ⟨"README.md", 1, false, false, none, none, none⟩] (by decide)

/-- C10: when the selected visible entry is a file (not a directory),
`toggle_expansion` leaves the whole state unchanged: no master entry flag
flips, the visible sequence is identical, and the selection stays at the
same index referring to the same path. -/
theorem C10_toggle_on_file_is_frame (s : AppState) (i : Nat)
    (hcons : s.visible_entries = regenerate_visible_entries s.master_entries)
    (hnodup : (s.master_entries.map FileEntry.path).Nodup)
    (hsel : s.list_state = some i) (hi : i < s.visible_entries.length)
    (hfile : (s.visible_entries.getD i default).is_dir = false) :
    s.toggle_selected_directory = some s :=
  toggle_on_file_noop s i hcons hnodup hsel hi hfile

theorem C10_witness :
    AppState.toggle_selected_directory
      ⟨[⟨"src", 1, true, false, none, none, none⟩,
        ⟨"src/main.rs", 2, false, false, none, none, none⟩,
        ⟨"README.md", 1, false, false, none, none, none⟩],
       [⟨"src", 1, true, false, none, none, none⟩,
        ⟨"README.md", 1, false, false, none, none, none⟩], some 1⟩ =
    some ⟨[⟨"src", 1, true, false, none, none, none⟩,
        ⟨"src/main.rs", 2, false, false, none, none, none⟩,
        ⟨"README.md", 1, false, false, none, none, none⟩],
       [⟨"src", 1, true, false, none, none, none⟩,
        ⟨"README.md", 1, false, false, none, none, none⟩], some 1⟩ :=
  C10_toggle_on_file_is_frame
    ⟨[⟨"src", 1, true, false, none, none, none⟩,
      ⟨"src/main.rs", 2, false, false, none, none, none⟩,
      ⟨"README.md", 1, false, false, none, none, none⟩],
     [⟨"src", 1, true, false, none, none, none⟩,
      ⟨"README.md", 1, false, false, none, none, none⟩], some 1⟩ 1
    (by decide) (by decide) rfl (by decide) (by decide)
